import Mathlib

/-!
Verification of the YAVNE normal-computation core (`operators.py`).

The development shallowly embeds the two operators the claims are about:

* `MESH_OT_UpdateVertexNormals.worker` / `execute` — the parallel
  normal-compute engine (chunk partitioning, influence-priority filtering,
  the five weight modes, the shared output buffer);
* `MESH_OT_MergeVertexNormals.execute` — the spatial-hash merge pass
  (grid cells, 3x3x3 neighborhood query, the pending-set loop).

Mesh attribute data (face normals, areas, corner angles, layer values,
render-normal snapshots) is carried as rational data, exactly as the code
reads it from the mesh kernel; vectors produced by `Vector.normalize` live
over the reals.  The worker's Python float chunk boundaries are modelled
by correctly-rounded IEEE-754 binary64 arithmetic over the rationals
(function `fl`); components of the repository that are not under `src/`
(`types.py`, `utils.py`) are modelled from the spec and marked so.
-/

namespace Yavne

/-- Rational 3-vector: mesh attribute data (positions, face normals, layer
normals) as the code reads it from the mesh kernel. -/
structure Vec3Q where
  x : ℚ
  y : ℚ
  z : ℚ
deriving DecidableEq

instance : Zero Vec3Q := ⟨⟨0, 0, 0⟩⟩

instance : Add Vec3Q := ⟨fun a b => ⟨a.x + b.x, a.y + b.y, a.z + b.z⟩⟩

instance : Sub Vec3Q := ⟨fun a b => ⟨a.x - b.x, a.y - b.y, a.z - b.z⟩⟩

instance : SMul ℚ Vec3Q := ⟨fun q v => ⟨q * v.x, q * v.y, q * v.z⟩⟩

theorem Vec3Q.ext_iff {a b : Vec3Q} : a = b ↔ a.x = b.x ∧ a.y = b.y ∧ a.z = b.z := by
  cases a; cases b; simp

@[simp] theorem Vec3Q.zero_x : (0 : Vec3Q).x = 0 := rfl

@[simp] theorem Vec3Q.zero_y : (0 : Vec3Q).y = 0 := rfl

@[simp] theorem Vec3Q.zero_z : (0 : Vec3Q).z = 0 := rfl

@[simp] theorem Vec3Q.add_x (a b : Vec3Q) : (a + b).x = a.x + b.x := rfl

@[simp] theorem Vec3Q.add_y (a b : Vec3Q) : (a + b).y = a.y + b.y := rfl

@[simp] theorem Vec3Q.add_z (a b : Vec3Q) : (a + b).z = a.z + b.z := rfl

@[simp] theorem Vec3Q.sub_x (a b : Vec3Q) : (a - b).x = a.x - b.x := rfl

@[simp] theorem Vec3Q.sub_y (a b : Vec3Q) : (a - b).y = a.y - b.y := rfl

@[simp] theorem Vec3Q.sub_z (a b : Vec3Q) : (a - b).z = a.z - b.z := rfl

@[simp] theorem Vec3Q.smul_x (q : ℚ) (v : Vec3Q) : (q • v).x = q * v.x := rfl

@[simp] theorem Vec3Q.smul_y (q : ℚ) (v : Vec3Q) : (q • v).y = q * v.y := rfl

@[simp] theorem Vec3Q.smul_z (q : ℚ) (v : Vec3Q) : (q • v).z = q * v.z := rfl

instance : AddCommMonoid Vec3Q where
  add_assoc a b c := by simp [Vec3Q.ext_iff, add_assoc]
  zero_add a := by simp [Vec3Q.ext_iff]
  add_zero a := by simp [Vec3Q.ext_iff]
  add_comm a b := by simp [Vec3Q.ext_iff]; exact ⟨add_comm _ _, add_comm _ _, add_comm _ _⟩
  nsmul := nsmulRec

/-- Squared Euclidean length, as `mathutils.Vector.length_squared`. -/
def Vec3Q.lengthSq (v : Vec3Q) : ℚ := v.x * v.x + v.y * v.y + v.z * v.z

/-- Real 3-vector: the result type of `mathutils.Vector.normalize`. -/
structure Vec3R where
  x : ℝ
  y : ℝ
  z : ℝ

instance : Zero Vec3R := ⟨⟨0, 0, 0⟩⟩

noncomputable instance : Add Vec3R := ⟨fun a b => ⟨a.x + b.x, a.y + b.y, a.z + b.z⟩⟩

noncomputable instance : SMul ℝ Vec3R := ⟨fun c v => ⟨c * v.x, c * v.y, c * v.z⟩⟩

theorem Vec3R.extR_iff {a b : Vec3R} : a = b ↔ a.x = b.x ∧ a.y = b.y ∧ a.z = b.z := by
  cases a; cases b; simp

@[simp] theorem Vec3R.zeroR_x : (0 : Vec3R).x = 0 := rfl

@[simp] theorem Vec3R.zeroR_y : (0 : Vec3R).y = 0 := rfl

@[simp] theorem Vec3R.zeroR_z : (0 : Vec3R).z = 0 := rfl

@[simp] theorem Vec3R.addR_x (a b : Vec3R) : (a + b).x = a.x + b.x := rfl

@[simp] theorem Vec3R.addR_y (a b : Vec3R) : (a + b).y = a.y + b.y := rfl

@[simp] theorem Vec3R.addR_z (a b : Vec3R) : (a + b).z = a.z + b.z := rfl

@[simp] theorem Vec3R.smulR_x (c : ℝ) (v : Vec3R) : (c • v).x = c * v.x := rfl

@[simp] theorem Vec3R.smulR_y (c : ℝ) (v : Vec3R) : (c • v).y = c * v.y := rfl

@[simp] theorem Vec3R.smulR_z (c : ℝ) (v : Vec3R) : (c • v).z = c * v.z := rfl

/-- Cast of mesh data into the real-valued vector space. -/
noncomputable def Vec3Q.toR (v : Vec3Q) : Vec3R := ⟨(v.x : ℝ), (v.y : ℝ), (v.z : ℝ)⟩

/-- Squared Euclidean length over the reals. -/
noncomputable def Vec3R.lengthSq (v : Vec3R) : ℝ := v.x * v.x + v.y * v.y + v.z * v.z

/-- `mathutils.Vector.normalize`: divide by the Euclidean length; the zero
vector (whose length is 0, and 0⁻¹ = 0 over ℝ) is left unchanged, exactly
as `mathutils` leaves a zero vector unchanged. -/
noncomputable def normalize (v : Vec3R) : Vec3R := (Real.sqrt v.lengthSq)⁻¹ • v

@[simp] theorem normalize_zero : normalize (0 : Vec3R) = 0 := by
  simp [normalize, Vec3R.extR_iff]

/-! ### The compute engine: `MESH_OT_UpdateVertexNormals` -/

namespace VertexNormalWeight

/-- Modelled from the spec: `types.VertexNormalWeight` (`types.py` is not
under `src/`) is an enumeration of the five weight modes stored as an
integer vertex attribute; the exact integer encoding is fixed here as
0..4 in spec order. -/
def UNIFORM : ℤ := 0

/-- Modelled from the spec: the ANGLE weight mode of `types.VertexNormalWeight`. -/
def ANGLE : ℤ := 1

/-- Modelled from the spec: the AREA weight mode of `types.VertexNormalWeight`. -/
def AREA : ℤ := 2

/-- Modelled from the spec: the COMBINED weight mode of `types.VertexNormalWeight`. -/
def COMBINED : ℤ := 3

/-- Modelled from the spec: the UNWEIGHTED weight mode of `types.VertexNormalWeight`. -/
def UNWEIGHTED : ℤ := 4

end VertexNormalWeight

/-- A face-corner (`BMLoop`) with the attribute data the worker reads from
it: its output-buffer index `loop.index`, its face's
`face-normal-influence` layer value, the face's planar normal and area as
exposed by the mesh kernel, the corner's interior angle
(`loop.calc_angle()`), and the authored per-corner layer normal
(`loop-normal-x/y/z`).  `face_linked_area` is modelled from the spec: it
is the value `types.LinkedFaceAreaCache.get` (not under `src/`) returns
for this loop's face — the summed area of the face's smooth-linked
island.  `loop_space_transform_inv` is modelled from the spec: it is the
map `utils.loop_space_transform(loop, ., True)` (not under `src/`)
carrying an authored corner-space vector into averaging space. -/
structure ELoop where
  index : ℕ
  face_normal_influence : ℤ
  face_normal : Vec3Q
  face_area : ℚ
  face_linked_area : ℚ
  calc_angle : ℚ
  layer_normal : Vec3Q
  loop_space_transform_inv : Vec3Q → Vec3Q

/-- A vertex as the worker reads it: its `vertex-normal-weight` layer
value and its shading groups.  The groups are modelled from the spec:
`utils.split_loops` (not under `src/`) partitions the vertex's linked
loops into shading groups by sharpness and smoothing angle; the resulting
partition is carried here as data. -/
structure EVert where
  vertex_normal_weight : ℤ
  groups : List (List ELoop)

/-- The preference the worker consults when choosing the face-area cache:
`use_linked_face_weights` selects `types.LinkedFaceAreaCache` over the
plain `types.FaceAreaCache`. -/
structure EngineConfig where
  use_linked_face_weights : Bool

/-- `area_cache.get(loop.face)`: the plain cache returns the face's own
planar area, the linked cache the face's island area. -/
def cachedArea (cfg : EngineConfig) (l : ELoop) : ℚ :=
  if cfg.use_linked_face_weights then l.face_linked_area else l.face_area

/-- `influence_max = max(loop.face[face_normal_influence_layer] for loop in loop_group)`.
Python's `max` over a nonempty group; on the empty list (which the code
never produces, as shading groups are nonempty) the value defaults to 0. -/
def influence_max : List ELoop → ℤ
  | [] => 0
  | l :: ls => ls.foldl (fun m x => max m x.face_normal_influence) l.face_normal_influence

/-- `loop_subgroup`: the corners of the group whose face holds the
group-maximal `face-normal-influence` value. -/
def loop_subgroup (g : List ELoop) : List ELoop :=
  g.filter (fun l => l.face_normal_influence == influence_max g)

/-- The weight-mode dispatch of the worker: sum the contributions of the
given subgroup according to the vertex normal weight.  An unrecognized
weight value leaves the accumulator at the zero vector, as in the code
(no `elif` branch matches). -/
def sumContributions (cfg : EngineConfig) (weight : ℤ) (sub : List ELoop) : Vec3Q :=
  if weight = VertexNormalWeight.UNIFORM then
    sub.foldl (fun a l => a + l.face_normal) 0
  else if weight = VertexNormalWeight.ANGLE then
    sub.foldl (fun a l => a + l.calc_angle • l.face_normal) 0
  else if weight = VertexNormalWeight.AREA then
    sub.foldl (fun a l => a + cachedArea cfg l • l.face_normal) 0
  else if weight = VertexNormalWeight.COMBINED then
    sub.foldl (fun a l => a + (l.calc_angle * cachedArea cfg l) • l.face_normal) 0
  else if weight = VertexNormalWeight.UNWEIGHTED then
    sub.foldl (fun a l => a + l.loop_space_transform_inv l.layer_normal) 0
  else 0

/-- `vn_local` accumulated for one shading group: contributions of the
max-influence subgroup only. -/
def groupSum (cfg : EngineConfig) (weight : ℤ) (g : List ELoop) : Vec3Q :=
  sumContributions cfg weight (loop_subgroup g)

/-- `vn_local.normalize()`: the per-group aggregated normal. -/
noncomputable def groupNormal (cfg : EngineConfig) (weight : ℤ) (g : List ELoop) : Vec3R :=
  normalize (groupSum cfg weight g).toR

/-- Writing `vn_local` into `out[loop.index]` for every loop of the group. -/
noncomputable def writeGroup (out : ℕ → Vec3R) (g : List ELoop) (vn : Vec3R) : ℕ → Vec3R :=
  g.foldl (fun o l => Function.update o l.index vn) out

/-- Processing one vertex: for each shading group, aggregate and write. -/
noncomputable def processVert (cfg : EngineConfig) (out : ℕ → Vec3R) (v : EVert) : ℕ → Vec3R :=
  v.groups.foldl (fun o g => writeGroup o g (groupNormal cfg v.vertex_normal_weight g)) out

/-- Round to nearest integer, ties to even: the rounding of IEEE-754
binary64 arithmetic applied to a scaled significand. -/
def rne (x : ℚ) : ℤ :=
  if x - ⌊x⌋ < 1 / 2 then ⌊x⌋
  else if 1 / 2 < x - ⌊x⌋ then ⌊x⌋ + 1
  else if ⌊x⌋ % 2 = 0 then ⌊x⌋ else ⌊x⌋ + 1

/-- Correctly-rounded IEEE-754 binary64 value of a rational: round to a
53-bit significand at the scale of the input, to nearest, ties to even.
The exponent is unbounded (no overflow or subnormal handling), which
agrees exactly with binary64 on the magnitudes the worker's chunk
arithmetic produces (quotients in (0, 1] of positive machine integers,
and their products with vertex counts). -/
def fl (x : ℚ) : ℚ :=
  if 0 < x then (rne (x * 2 ^ ((52 : ℤ) - Int.log 2 x)) : ℚ) * 2 ^ (Int.log 2 x - 52)
  else if x < 0 then
    -((rne (-x * 2 ^ ((52 : ℤ) - Int.log 2 (-x))) : ℚ) * 2 ^ (Int.log 2 (-x) - 52))
  else 0

/-- `first = int(chunk / total * len(bm.verts))` (the worker's chunk
boundary, line 925), modelled with binary64 arithmetic: the two Python
ints are converted to doubles, divided with one rounding, the vertex
count is converted to a double and multiplied with one rounding, and
`int` truncates (floors, as the value is nonnegative). -/
def chunk_first (V chunk total : ℕ) : ℕ :=
  (⌊fl (fl (fl (chunk : ℚ) / fl (total : ℚ)) * fl (V : ℚ))⌋).toNat

/-- `last = int((chunk + 1) / total * len(bm.verts))` (line 926): the
same boundary expression at `chunk + 1` (the int addition is exact). -/
def chunk_last (V chunk total : ℕ) : ℕ := chunk_first V (chunk + 1) total

/-- `[i + first for i in range(last - first)]`: the vertex indices a worker
invocation processes. -/
def workerIndices (V chunk total : ℕ) : List ℕ :=
  (List.range (chunk_last V chunk total - chunk_first V chunk total)).map
    (fun i => i + chunk_first V chunk total)

/-- `MESH_OT_UpdateVertexNormals.worker`: process every vertex of the
chunk's index range, writing into the shared output buffer.  An index
outside the vertex list (never produced for `chunk < total`) reads a
vertex with no groups, writing nothing. -/
noncomputable def worker (cfg : EngineConfig) (verts : List EVert) (out : ℕ → Vec3R)
    (chunk total : ℕ) : ℕ → Vec3R :=
  (workerIndices verts.length chunk total).foldl
    (fun o idx => processVert cfg o (verts.getD idx ⟨0, []⟩)) out

/-- Running `total` worker invocations (chunks `0 .. total-1`) into the
same output buffer, as `execute` does over its team of workers. -/
noncomputable def runChunks (cfg : EngineConfig) (verts : List EVert) (out : ℕ → Vec3R)
    (total : ℕ) : ℕ → Vec3R :=
  (List.range total).foldl (fun o c => worker cfg verts o c total) out

/-! ### The merge operator: `MESH_OT_MergeVertexNormals` -/

/-- A grid cell of the uniform spatial hash. -/
structure Cell where
  cx : ℤ
  cy : ℤ
  cz : ℤ
deriving DecidableEq

/-- A vertex as the merge operator reads it: an identity (`BMVert`s are
distinct objects), its position, its selection flag, and the buffer
indices of its linked loops. -/
structure MVert where
  id : ℕ
  co : Vec3Q
  select : Bool
  link_loops : List ℕ
deriving DecidableEq

/-- The mesh state the merge loop reads: the vertex list, the snapshot of
`mesh.loops` render normals taken by `mesh.loops.foreach_get('normal', ...)`
before the loop (indexed by `loop.index`), and
`utils.loop_space_transform(loop, ., False)`, modelled from the spec
(`utils.py` is not under `src/`) as a per-loop map carrying the merged
normal into the corner's space. -/
structure MergeMesh where
  verts : List MVert
  snapshot : ℕ → Vec3Q
  loop_space_transform : ℕ → Vec3R → Vec3R

/-- `(int(x // d), int(y // d), int(z // d))`: the vertex's grid cell. -/
def cellOf (d : ℚ) (c : Vec3Q) : Cell := ⟨⌊c.x / d⌋, ⌊c.y / d⌋, ⌊c.z / d⌋⟩

/-- The vertices organized into the spatial hash:
`bm.verts if self.unselected else selected_verts`. -/
def indexedVerts (m : MergeMesh) (unselected : Bool) : List MVert :=
  if unselected then m.verts else m.verts.filter (fun v => v.select)

/-- Squared distance between two positions:
`(v.co - v_curr_co).length_squared`. -/
def distSq (a b : Vec3Q) : ℚ := (a - b).lengthSq

/-- `nearby_verts`: all indexed vertices gathered from the 3x3x3 cell
neighborhood of the seed's cell.  The code walks the cell dictionary for
`i in [x-1, x, x+1]` (and likewise `j`, `k`); since each vertex sits in
exactly one cell, the gathered collection is the sub-collection of
indexed vertices whose cell lies in that neighborhood, modelled here as a
filter of the indexed list. -/
def nearby_verts (d : ℚ) (idx : List MVert) (v : MVert) : List MVert :=
  let c := cellOf d v.co
  idx.filter (fun w =>
    let cw := cellOf d w.co
    decide (c.cx - 1 ≤ cw.cx ∧ cw.cx ≤ c.cx + 1 ∧
            c.cy - 1 ≤ cw.cy ∧ cw.cy ≤ c.cy + 1 ∧
            c.cz - 1 ≤ cw.cz ∧ cw.cz ≤ c.cz + 1))

/-- `mergeable_verts`: the nearby vertices whose true squared distance to
the seed is at most `merge_distance_squared = self.distance ** 2`. -/
def mergeable_verts (d : ℚ) (idx : List MVert) (v : MVert) : List MVert :=
  (nearby_verts d idx v).filter (fun w => decide (distSq w.co v.co ≤ d * d))

/-- `v_curr_normal_count`: the number of distinct snapshot normals among
the seed's own corners (the size of the Python `set` of coordinate
triples). -/
def normalCount (m : MergeMesh) (v : MVert) : ℕ :=
  ((v.link_loops.map m.snapshot).dedup).length

/-- One cluster member's own averaged normal: sum the snapshot normals of
its corners and normalize. -/
noncomputable def memberNormal (m : MergeMesh) (v : MVert) : Vec3R :=
  normalize ((v.link_loops.foldl (fun a i => a + m.snapshot i) 0).toR)

/-- `vn_local`: the cluster normal — sum of the members' averaged normals,
normalized. -/
noncomputable def clusterNormal (m : MergeMesh) (cluster : List MVert) : Vec3R :=
  normalize (cluster.foldl (fun a v => a + memberNormal m v) 0)

/-- The attribute state the merge loop writes: the per-vertex
`vertex-normal-weight` layer and the per-corner `loop-normal-x/y/z`
layers (bundled as one vector per loop index). -/
structure MergeState where
  weight : ℕ → ℤ
  loopNormal : ℕ → Vec3R

/-- One iteration of the merge loop, as decided before any writing: the
popped seed, its cluster, and whether the write branch
(`v_curr_normal_count > 1 or len(mergeable_verts) > 1`) is taken. -/
structure MergeStep where
  seed : MVert
  cluster : List MVert
  write : Bool
deriving DecidableEq

/-- The iteration decided for a seed vertex. -/
def mergeStepOf (d : ℚ) (m : MergeMesh) (unselected : Bool) (v : MVert) : MergeStep :=
  let cluster := mergeable_verts d (indexedVerts m unselected) v
  { seed := v
    cluster := cluster
    write := decide (1 < normalCount m v) || decide (1 < cluster.length) }

/-- The attribute writes of one iteration: if the write branch is taken,
every cluster member is set to UNWEIGHTED weight and each of its corners
receives the cluster normal transformed into that corner's space;
otherwise the state is untouched. -/
noncomputable def applyStep (m : MergeMesh) (st : MergeState) (s : MergeStep) : MergeState :=
  if s.write then
    s.cluster.foldl
      (fun st2 v =>
        { weight := Function.update st2.weight v.id VertexNormalWeight.UNWEIGHTED
          loopNormal := v.link_loops.foldl
            (fun f i => Function.update f i (m.loop_space_transform i (clusterNormal m s.cluster)))
            st2.loopNormal })
      st
  else st

/-- The merge loop over the pending list of selected vertices.  Each
iteration pops the head seed, computes its cluster, applies the writes,
and removes the cluster's selected members from the pending list
(`selected_verts.difference_update(local_selection)`).  The loop
consumes at least the seed each iteration, so fuel equal to the initial
pending length (as `mergeRun` supplies) runs it to completion. -/
noncomputable def mergeLoopFuel (d : ℚ) (m : MergeMesh) (unselected : Bool) :
    ℕ → MergeState → List MVert → MergeState × List MergeStep
  | 0, st, _ => (st, [])
  | _ + 1, st, [] => (st, [])
  | fuel + 1, st, v :: rest =>
    let s := mergeStepOf d m unselected v
    let st2 := applyStep m st s
    let rest2 := rest.filter (fun w => !(decide (w ∈ s.cluster) && w.select))
    let r := mergeLoopFuel d m unselected fuel st2 rest2
    (r.1, s :: r.2)

/-- The initial pending collection: `set(v for v in bm.verts if v.select)`. -/
def pendingOf (m : MergeMesh) : List MVert := m.verts.filter (fun v => v.select)

/-- The whole merge pass of `MESH_OT_MergeVertexNormals.execute`: run the
loop from the initial pending list, returning the final attribute state
and the trace of iterations. -/
noncomputable def mergeRun (d : ℚ) (m : MergeMesh) (unselected : Bool) (st : MergeState) :
    MergeState × List MergeStep :=
  mergeLoopFuel d m unselected (pendingOf m).length st (pendingOf m)

/-! ### Chunk partitioning (claims C1, C2) -/

theorem rne_intCast (n : ℤ) : rne (n : ℚ) = n := by
  rw [rne, Int.floor_intCast]
  norm_num

theorem floor_le_rne (x : ℚ) : ⌊x⌋ ≤ rne x := by
  rw [rne]
  split_ifs <;> omega

theorem rne_le_floor_add_one (x : ℚ) : rne x ≤ ⌊x⌋ + 1 := by
  rw [rne]
  split_ifs <;> omega

theorem rne_mono {x y : ℚ} (h : x ≤ y) : rne x ≤ rne y := by
  have hf : ⌊x⌋ ≤ ⌊y⌋ := Int.floor_le_floor h
  rcases eq_or_lt_of_le hf with heq | hlt
  · by_cases h1 : x - ⌊x⌋ < 1 / 2
    · have hx : rne x = ⌊x⌋ := by rw [rne, if_pos h1]
      rw [hx, heq]
      exact floor_le_rne y
    · push_neg at h1
      have hy1 : ¬(y - ⌊y⌋ < 1 / 2) := by
        rw [← heq]
        push_neg
        linarith
      by_cases h2 : 1 / 2 < y - ⌊y⌋
      · have hy : rne y = ⌊y⌋ + 1 := by rw [rne, if_neg hy1, if_pos h2]
        rw [hy, ← heq]
        exact rne_le_floor_add_one x
      · push_neg at h2 hy1
        have hxy : x = y := by
          have hcast : ((⌊x⌋ : ℚ)) = ((⌊y⌋ : ℚ)) := by exact_mod_cast heq
          linarith
        rw [hxy]
  · calc rne x ≤ ⌊x⌋ + 1 := rne_le_floor_add_one x
    _ ≤ ⌊y⌋ := by omega
    _ ≤ rne y := floor_le_rne y

theorem fl_zero : fl 0 = 0 := by
  rw [fl]
  norm_num

theorem fl_of_pos {x : ℚ} (hx : 0 < x) :
    fl x = (rne (x * 2 ^ ((52 : ℤ) - Int.log 2 x)) : ℚ) * 2 ^ (Int.log 2 x - 52) := by
  rw [fl, if_pos hx]

theorem scaled_lb {x : ℚ} (hx : 0 < x) :
    (2 : ℚ) ^ (52 : ℤ) ≤ x * 2 ^ ((52 : ℤ) - Int.log 2 x) := by
  have h1 : ((2 : ℕ) : ℚ) ^ Int.log 2 x ≤ x := Int.zpow_log_le_self one_lt_two hx
  have h2 : (2 : ℚ) ^ Int.log 2 x ≤ x := by exact_mod_cast h1
  have h3 : (0 : ℚ) < 2 ^ ((52 : ℤ) - Int.log 2 x) := by positivity
  calc (2 : ℚ) ^ (52 : ℤ) = 2 ^ Int.log 2 x * 2 ^ ((52 : ℤ) - Int.log 2 x) := by
        rw [← zpow_add₀ (by norm_num : (2 : ℚ) ≠ 0)]
        congr 1
        omega
    _ ≤ x * 2 ^ ((52 : ℤ) - Int.log 2 x) := by
        exact mul_le_mul_of_nonneg_right h2 h3.le

theorem scaled_ub {x : ℚ} (_hx : 0 < x) :
    x * 2 ^ ((52 : ℤ) - Int.log 2 x) < (2 : ℚ) ^ (53 : ℤ) := by
  have h1 : x < ((2 : ℕ) : ℚ) ^ (Int.log 2 x + 1) := Int.lt_zpow_succ_log_self one_lt_two x
  have h2 : x < (2 : ℚ) ^ (Int.log 2 x + 1) := by exact_mod_cast h1
  have h3 : (0 : ℚ) < 2 ^ ((52 : ℤ) - Int.log 2 x) := by positivity
  calc x * 2 ^ ((52 : ℤ) - Int.log 2 x)
      < 2 ^ (Int.log 2 x + 1) * 2 ^ ((52 : ℤ) - Int.log 2 x) := by
        exact mul_lt_mul_of_pos_right h2 h3
    _ = (2 : ℚ) ^ (53 : ℤ) := by
        rw [← zpow_add₀ (by norm_num : (2 : ℚ) ≠ 0)]
        congr 1
        omega

theorem rne_scaled_lb {x : ℚ} (hx : 0 < x) :
    (2 : ℤ) ^ 52 ≤ rne (x * 2 ^ ((52 : ℤ) - Int.log 2 x)) := by
  have h1 := scaled_lb hx
  have h2 : ((2 : ℤ) ^ 52 : ℤ) ≤ ⌊x * 2 ^ ((52 : ℤ) - Int.log 2 x)⌋ := by
    rw [Int.le_floor]
    calc (((2 : ℤ) ^ 52 : ℤ) : ℚ) = (2 : ℚ) ^ (52 : ℤ) := by
          push_cast
          norm_num
      _ ≤ _ := h1
  exact le_trans h2 (floor_le_rne _)

theorem rne_scaled_ub {x : ℚ} (hx : 0 < x) :
    rne (x * 2 ^ ((52 : ℤ) - Int.log 2 x)) ≤ (2 : ℤ) ^ 53 := by
  have h1 := scaled_ub hx
  have h2 : ⌊x * 2 ^ ((52 : ℤ) - Int.log 2 x)⌋ < (2 : ℤ) ^ 53 := by
    rw [Int.floor_lt]
    calc x * 2 ^ ((52 : ℤ) - Int.log 2 x) < (2 : ℚ) ^ (53 : ℤ) := h1
      _ = (((2 : ℤ) ^ 53 : ℤ) : ℚ) := by
          push_cast
          norm_num
  have := rne_le_floor_add_one (x * 2 ^ ((52 : ℤ) - Int.log 2 x))
  omega

theorem fl_pos {x : ℚ} (hx : 0 < x) : 0 < fl x := by
  rw [fl_of_pos hx]
  have h1 := rne_scaled_lb hx
  have hm : (0 : ℚ) < (rne (x * 2 ^ ((52 : ℤ) - Int.log 2 x)) : ℚ) := by
    have h0 : (0 : ℤ) < rne (x * 2 ^ ((52 : ℤ) - Int.log 2 x)) :=
      lt_of_lt_of_le (by positivity) h1
    exact_mod_cast h0
  positivity

theorem fl_nonneg {x : ℚ} (hx : 0 ≤ x) : 0 ≤ fl x := by
  rcases eq_or_lt_of_le hx with heq | hlt
  · rw [← heq, fl_zero]
  · exact (fl_pos hlt).le

theorem zpow_le_fl {x : ℚ} (hx : 0 < x) : (2 : ℚ) ^ Int.log 2 x ≤ fl x := by
  rw [fl_of_pos hx]
  have h1 := rne_scaled_lb hx
  have h2 : ((2 : ℚ) ^ (52 : ℤ)) ≤ (rne (x * 2 ^ ((52 : ℤ) - Int.log 2 x)) : ℚ) := by
    calc ((2 : ℚ) ^ (52 : ℤ)) = (((2 : ℤ) ^ 52 : ℤ) : ℚ) := by push_cast; norm_num
      _ ≤ _ := by exact_mod_cast h1
  calc (2 : ℚ) ^ Int.log 2 x = 2 ^ (52 : ℤ) * 2 ^ (Int.log 2 x - 52) := by
        rw [← zpow_add₀ (by norm_num : (2 : ℚ) ≠ 0)]
        congr 1
        omega
    _ ≤ _ := mul_le_mul_of_nonneg_right h2 (by positivity)

theorem fl_le_zpow {x : ℚ} (hx : 0 < x) : fl x ≤ (2 : ℚ) ^ (Int.log 2 x + 1) := by
  rw [fl_of_pos hx]
  have h1 := rne_scaled_ub hx
  have h2 : (rne (x * 2 ^ ((52 : ℤ) - Int.log 2 x)) : ℚ) ≤ (2 : ℚ) ^ (53 : ℤ) := by
    calc (rne (x * 2 ^ ((52 : ℤ) - Int.log 2 x)) : ℚ) ≤ (((2 : ℤ) ^ 53 : ℤ) : ℚ) := by
          exact_mod_cast h1
      _ = (2 : ℚ) ^ (53 : ℤ) := by push_cast; norm_num
  calc (rne (x * 2 ^ ((52 : ℤ) - Int.log 2 x)) : ℚ) * 2 ^ (Int.log 2 x - 52)
      ≤ (2 : ℚ) ^ (53 : ℤ) * 2 ^ (Int.log 2 x - 52) :=
        mul_le_mul_of_nonneg_right h2 (by positivity)
    _ = (2 : ℚ) ^ (Int.log 2 x + 1) := by
        rw [← zpow_add₀ (by norm_num : (2 : ℚ) ≠ 0)]
        congr 1
        omega

theorem fl_mono {x y : ℚ} (hx : 0 ≤ x) (h : x ≤ y) : fl x ≤ fl y := by
  rcases eq_or_lt_of_le hx with heq | hxpos
  · rw [← heq, fl_zero]
    exact fl_nonneg (le_trans hx h)
  · have hypos : 0 < y := lt_of_lt_of_le hxpos h
    have hlog : Int.log 2 x ≤ Int.log 2 y := Int.log_mono_right hxpos h
    rcases eq_or_lt_of_le hlog with hleq | hllt
    · rw [fl_of_pos hxpos, fl_of_pos hypos, ← hleq]
      have hs : x * 2 ^ ((52 : ℤ) - Int.log 2 x) ≤ y * 2 ^ ((52 : ℤ) - Int.log 2 x) :=
        mul_le_mul_of_nonneg_right h (by positivity)
      have hr : rne (x * 2 ^ ((52 : ℤ) - Int.log 2 x))
          ≤ rne (y * 2 ^ ((52 : ℤ) - Int.log 2 x)) := rne_mono hs
      exact mul_le_mul_of_nonneg_right (by exact_mod_cast hr) (by positivity)
    · calc fl x ≤ (2 : ℚ) ^ (Int.log 2 x + 1) := fl_le_zpow hxpos
        _ ≤ (2 : ℚ) ^ Int.log 2 y := by
            apply zpow_le_zpow_right₀ (by norm_num : (1 : ℚ) ≤ 2)
            omega
        _ ≤ fl y := zpow_le_fl hypos

theorem fl_eq_self {x : ℚ} (m : ℕ) (e : ℤ) (hm : m < 2 ^ 53)
    (hx : x = (m : ℚ) * 2 ^ e) : fl x = x := by
  rcases Nat.eq_zero_or_pos m with hm0 | hmpos
  · rw [hx, hm0]
    simpa using fl_zero
  · have hxpos : 0 < x := by
      rw [hx]
      positivity
    have hub : x < (2 : ℚ) ^ (e + 53) := by
      rw [hx]
      calc (m : ℚ) * 2 ^ e < (2 : ℚ) ^ (53 : ℤ) * 2 ^ e := by
            apply mul_lt_mul_of_pos_right _ (by positivity)
            calc (m : ℚ) < ((2 ^ 53 : ℕ) : ℚ) := by exact_mod_cast hm
              _ = (2 : ℚ) ^ (53 : ℤ) := by push_cast; norm_num
        _ = (2 : ℚ) ^ (e + 53) := by
            rw [← zpow_add₀ (by norm_num : (2 : ℚ) ≠ 0)]
            congr 1
            omega
    have hL : Int.log 2 x ≤ e + 52 := by
      have := (Int.lt_zpow_iff_log_lt one_lt_two hxpos).mp (by exact_mod_cast hub)
      omega
    set L := Int.log 2 x with hLdef
    obtain ⟨k, hk⟩ : ∃ k : ℕ, e + 52 - L = (k : ℤ) :=
      ⟨(e + 52 - L).toNat, (Int.toNat_of_nonneg (by omega)).symm⟩
    have hpow : (2 : ℚ) ^ (e + ((52 : ℤ) - L)) = (((2 ^ k : ℤ) : ℚ)) := by
      rw [show e + ((52 : ℤ) - L) = (k : ℤ) by omega]
      push_cast
      rw [zpow_natCast]
    have hs : x * 2 ^ ((52 : ℤ) - L) = (((m : ℤ) * 2 ^ k : ℤ) : ℚ) := by
      rw [hx, mul_assoc, ← zpow_add₀ (by norm_num : (2 : ℚ) ≠ 0), hpow]
      push_cast
      ring
    rw [fl_of_pos hxpos, ← hLdef, hs, rne_intCast, hx]
    push_cast
    rw [← zpow_natCast (2 : ℚ) k, mul_assoc, ← zpow_add₀ (by norm_num : (2 : ℚ) ≠ 0),
      show (k : ℤ) + (L - 52) = e by omega]

theorem fl_natCast (n : ℕ) (h : n < 2 ^ 53) : fl (n : ℚ) = n :=
  fl_eq_self n 0 h (by rw [zpow_zero, mul_one])

theorem fl_one : fl 1 = 1 := by
  have := fl_natCast 1 (by norm_num)
  simpa using this

theorem fl_idem {x : ℚ} (hx : 0 ≤ x) : fl (fl x) = fl x := by
  rcases eq_or_lt_of_le hx with heq | hxpos
  · rw [← heq, fl_zero, fl_zero]
  · have hlb := rne_scaled_lb hxpos
    have hub := rne_scaled_ub hxpos
    set m := rne (x * 2 ^ ((52 : ℤ) - Int.log 2 x)) with hmdef
    have hm0 : (0 : ℤ) ≤ m := le_trans (by positivity) hlb
    rcases eq_or_lt_of_le hub with hm53 | hmlt
    · apply fl_eq_self 1 (Int.log 2 x + 1) (by norm_num)
      rw [Nat.cast_one, one_mul, fl_of_pos hxpos, ← hmdef, hm53]
      have hcast : (((2 : ℤ) ^ 53 : ℤ) : ℚ) = (2 : ℚ) ^ (53 : ℤ) := by
        push_cast
        norm_num
      rw [hcast, ← zpow_add₀ (by norm_num : (2 : ℚ) ≠ 0)]
      congr 1
      omega
    · apply fl_eq_self m.toNat (Int.log 2 x - 52)
      · have hlit : ((2 : ℤ) ^ 53 : ℤ) = 9007199254740992 := by norm_num
        have hlitn : (2 : ℕ) ^ 53 = 9007199254740992 := by norm_num
        rw [hlitn]
        rw [hlit] at hmlt
        omega
      · rw [fl_of_pos hxpos, ← hmdef]
        congr 1
        exact_mod_cast (Int.toNat_of_nonneg hm0).symm

theorem chunk_first_zero (V total : ℕ) : chunk_first V 0 total = 0 := by
  simp [chunk_first, fl_zero]

theorem chunk_first_mono (V total : ℕ) {i j : ℕ} (h : i ≤ j) :
    chunk_first V i total ≤ chunk_first V j total := by
  rcases Nat.eq_zero_or_pos total with h0 | hpos
  · subst h0
    simp [chunk_first, fl_zero]
  · have htq : (0 : ℚ) < fl (total : ℚ) := fl_pos (by exact_mod_cast hpos)
    have hq : fl (i : ℚ) / fl (total : ℚ) ≤ fl (j : ℚ) / fl (total : ℚ) :=
      (div_le_div_iff_of_pos_right htq).mpr
        (fl_mono (Nat.cast_nonneg i) (by exact_mod_cast h))
    have hqn : (0 : ℚ) ≤ fl (i : ℚ) / fl (total : ℚ) :=
      div_nonneg (fl_nonneg (Nat.cast_nonneg i)) htq.le
    have hp : fl (fl (i : ℚ) / fl (total : ℚ)) * fl (V : ℚ)
        ≤ fl (fl (j : ℚ) / fl (total : ℚ)) * fl (V : ℚ) :=
      mul_le_mul_of_nonneg_right (fl_mono hqn hq) (fl_nonneg (Nat.cast_nonneg V))
    have hpn : (0 : ℚ) ≤ fl (fl (i : ℚ) / fl (total : ℚ)) * fl (V : ℚ) :=
      mul_nonneg (fl_nonneg hqn) (fl_nonneg (Nat.cast_nonneg V))
    exact Int.toNat_le_toNat (Int.floor_le_floor (fl_mono hpn hp))

theorem chunk_first_le_last (V chunk total : ℕ) :
    chunk_first V chunk total ≤ chunk_last V chunk total :=
  chunk_first_mono V total (Nat.le_succ chunk)

theorem chunk_last_eq_first_succ (V i total : ℕ) :
    chunk_last V i total = chunk_first V (i + 1) total := rfl

theorem chunk_first_full (V total : ℕ) (h : 1 ≤ total) :
    chunk_first V total total = (⌊fl (V : ℚ)⌋).toNat := by
  have hpos : (0 : ℚ) < fl (total : ℚ) := fl_pos (by exact_mod_cast h)
  rw [chunk_first, div_self hpos.ne', fl_one, one_mul,
    fl_idem (Nat.cast_nonneg V)]

theorem chunk_first_total (V total : ℕ) (h : 1 ≤ total) (hV : V < 2 ^ 53) :
    chunk_first V total total = V := by
  rw [chunk_first_full V total h, fl_natCast V hV]
  simp

theorem chunk_first_eval (V c t : ℕ) (q p : ℚ) (hc : c < 2 ^ 53) (ht : t < 2 ^ 53)
    (hV : V < 2 ^ 53) (hq : (c : ℚ) / (t : ℚ) = q) (hfq : fl q = q)
    (hp : q * (V : ℚ) = p) (hfp : fl p = p) :
    chunk_first V c t = (⌊p⌋).toNat := by
  rw [chunk_first, fl_natCast c hc, fl_natCast t ht, fl_natCast V hV, hq, hfq, hp, hfp]

theorem chunk_first_4000_1 : chunk_first 4000 1 4 = 1000 := by
  rw [chunk_first_eval 4000 1 4 (1 / 4) 1000 (by norm_num) (by norm_num) (by norm_num)
    (by norm_num) (fl_eq_self 1 (-2) (by norm_num) (by norm_num))
    (by norm_num) (fl_eq_self 1000 0 (by norm_num) (by norm_num))]
  decide

theorem chunk_first_4000_2 : chunk_first 4000 2 4 = 2000 := by
  rw [chunk_first_eval 4000 2 4 (1 / 2) 2000 (by norm_num) (by norm_num) (by norm_num)
    (by norm_num) (fl_eq_self 1 (-1) (by norm_num) (by norm_num))
    (by norm_num) (fl_eq_self 2000 0 (by norm_num) (by norm_num))]
  decide

theorem chunk_first_4000_3 : chunk_first 4000 3 4 = 3000 := by
  rw [chunk_first_eval 4000 3 4 (3 / 4) 3000 (by norm_num) (by norm_num) (by norm_num)
    (by norm_num) (fl_eq_self 3 (-2) (by norm_num) (by norm_num))
    (by norm_num) (fl_eq_self 3000 0 (by norm_num) (by norm_num))]
  decide

theorem fl_eq_of_bracket {x : ℚ} (e : ℤ) (hx : 0 < x) (h1 : (2 : ℚ) ^ e ≤ x)
    (h2 : x < (2 : ℚ) ^ (e + 1)) :
    fl x = (rne (x * 2 ^ ((52 : ℤ) - e)) : ℚ) * 2 ^ (e - 52) := by
  have hle : e ≤ Int.log 2 x :=
    (Int.zpow_le_iff_le_log one_lt_two hx).mp (by exact_mod_cast h1)
  have hlt : Int.log 2 x < e + 1 :=
    (Int.lt_zpow_iff_log_lt one_lt_two hx).mp (by exact_mod_cast h2)
  have hlog : Int.log 2 x = e := by omega
  rw [fl_of_pos hx, hlog]

theorem fl_inv49 : fl (1 / 49) = 5882252574524729 / 2 ^ 58 := by
  rw [fl_eq_of_bracket (-6) (by norm_num) (by norm_num) (by norm_num)]
  rw [show (1 / 49 : ℚ) * 2 ^ ((52 : ℤ) - (-6)) = 288230376151711744 / 49 by norm_num]
  have hfloor : ⌊(288230376151711744 / 49 : ℚ)⌋ = 5882252574524729 := by
    apply Int.floor_eq_iff.mpr
    constructor <;> norm_num
  have hrne : rne (288230376151711744 / 49 : ℚ) = 5882252574524729 := by
    rw [rne, hfloor]
    norm_num
  rw [hrne]
  norm_num

theorem fl_near_one : fl (288230376151711721 / 2 ^ 58) = 9007199254740991 / 2 ^ 53 := by
  rw [fl_eq_of_bracket (-1) (by norm_num) (by norm_num) (by norm_num)]
  rw [show (288230376151711721 / 2 ^ 58 : ℚ) * 2 ^ ((52 : ℤ) - (-1))
    = 288230376151711721 / 32 by norm_num]
  have hfloor : ⌊(288230376151711721 / 32 : ℚ)⌋ = 9007199254740991 := by
    apply Int.floor_eq_iff.mpr
    constructor <;> norm_num
  have hrne : rne (288230376151711721 / 32 : ℚ) = 9007199254740991 := by
    rw [rne, hfloor]
    norm_num
  rw [hrne]
  norm_num

theorem chunk_first_49_1 : chunk_first 49 1 49 = 0 := by
  rw [chunk_first]
  rw [show ((1 : ℕ) : ℚ) = (1 : ℚ) by norm_num, show ((49 : ℕ) : ℚ) = (49 : ℚ) by norm_num]
  rw [fl_one, show fl (49 : ℚ) = 49 by
    have h := fl_natCast 49 (by norm_num)
    simpa using h]
  rw [fl_inv49]
  rw [show (5882252574524729 / 2 ^ 58 : ℚ) * 49 = 288230376151711721 / 2 ^ 58 by norm_num]
  rw [fl_near_one]
  have hfloor : ⌊(9007199254740991 / 2 ^ 53 : ℚ)⌋ = 0 := by
    apply Int.floor_eq_iff.mpr
    constructor <;> norm_num
  rw [hfloor]
  rfl


theorem range_map_shift (a b c : ℕ) (hab : a ≤ b) :
    (List.range (b - a)).map (fun i => i + a) ++ (List.range (c - b)).map (fun i => i + b)
      = (List.range ((b - a) + (c - b))).map (fun i => i + a) := by
  rw [List.range_add, List.map_append, List.map_map]
  congr 1
  apply List.map_congr_left
  intro i _
  simp only [Function.comp_apply]
  omega

theorem chunk_range_unique (V total : ℕ) {i j k : ℕ}
    (hi : chunk_first V i total ≤ k ∧ k < chunk_last V i total)
    (hj : chunk_first V j total ≤ k ∧ k < chunk_last V j total) : i = j := by
  rcases Nat.lt_trichotomy i j with hlt | heq | hgt
  · exfalso
    have h1 : chunk_first V (i + 1) total ≤ chunk_first V j total :=
      chunk_first_mono V total hlt
    rw [chunk_last_eq_first_succ] at hi
    omega
  · exact heq
  · exfalso
    have h1 : chunk_first V (j + 1) total ≤ chunk_first V i total :=
      chunk_first_mono V total hgt
    rw [chunk_last_eq_first_succ] at hj
    omega

theorem chunk_range_cover (V total k : ℕ) (htot : 1 ≤ total) (hV : V < 2 ^ 53)
    (hk : k < V) :
    ∃ i, i < total ∧ chunk_first V i total ≤ k ∧ k < chunk_last V i total := by
  have hP0 : (fun i => chunk_first V i total ≤ k) 0 := by
    simp [chunk_first_zero]
  have hPg : chunk_first V
      (Nat.findGreatest (fun i => chunk_first V i total ≤ k) (total - 1)) total ≤ k :=
    @Nat.findGreatest_spec 0 (fun i => chunk_first V i total ≤ k) inferInstance
      (total - 1) (Nat.zero_le (total - 1)) hP0
  have hgle : Nat.findGreatest (fun i => chunk_first V i total ≤ k) (total - 1)
      ≤ total - 1 := Nat.findGreatest_le (total - 1)
  refine ⟨Nat.findGreatest (fun i => chunk_first V i total ≤ k) (total - 1),
    by omega, hPg, ?_⟩
  by_cases hit : Nat.findGreatest (fun i => chunk_first V i total ≤ k) (total - 1)
      = total - 1
  · rw [chunk_last_eq_first_succ, hit, Nat.sub_add_cancel htot,
      chunk_first_total V total htot hV]
    exact hk
  · have hnp : ¬ (chunk_first V
        (Nat.findGreatest (fun i => chunk_first V i total ≤ k) (total - 1) + 1) total ≤ k) :=
      @Nat.findGreatest_is_greatest
        (Nat.findGreatest (fun i => chunk_first V i total ≤ k) (total - 1) + 1)
        (fun i => chunk_first V i total ≤ k) inferInstance (total - 1)
        (by omega) (by omega)
    rw [chunk_last_eq_first_succ]
    omega

/-- Claim C1 (amended): for every worker count `total ≥ 1` and
binary64-exact vertex count `V < 2^53`, worker `i` processes exactly the
index range `[chunk_first V i total, chunk_last V i total)` given by the
program's float boundary `int(i / total * V)`; the ranges start at 0,
end at `V`, are contiguous and monotone (hence pairwise
non-overlapping), every vertex index `k < V` lies in exactly one
worker's range; and for `total = 4`, `V = 4000` the boundary arithmetic
is exact, giving ranges `[0,1000), [1000,2000), [2000,3000),
[3000,4000)`.  The float boundary need not equal `⌊i * V / total⌋` as
the claim stated — see the counterexample at `total = V = 49`. -/
theorem claim_C1 (V total : ℕ) (h : 1 ≤ total) (hV : V < 2 ^ 53) :
    chunk_first V 0 total = 0
    ∧ chunk_last V (total - 1) total = V
    ∧ (∀ i, chunk_last V i total = chunk_first V (i + 1) total)
    ∧ (∀ i j, i ≤ j → chunk_first V i total ≤ chunk_first V j total)
    ∧ (∀ i, workerIndices V i total
        = (List.range (chunk_last V i total - chunk_first V i total)).map
            (fun n => n + chunk_first V i total))
    ∧ (∀ k, k < V → ∃! i, i < total ∧ chunk_first V i total ≤ k ∧ k < chunk_last V i total)
    ∧ (chunk_first 4000 0 4 = 0 ∧ chunk_last 4000 0 4 = 1000 ∧ chunk_last 4000 1 4 = 2000
        ∧ chunk_last 4000 2 4 = 3000 ∧ chunk_last 4000 3 4 = 4000) := by
  refine ⟨chunk_first_zero V total, ?_, fun i => rfl,
    fun i j hij => chunk_first_mono V total hij, fun i => rfl, ?_, ?_⟩
  · rw [chunk_last_eq_first_succ, Nat.sub_add_cancel h, chunk_first_total V total h hV]
  · intro k hk
    obtain ⟨i, h1, h2, h3⟩ := chunk_range_cover V total k h hV hk
    exact ⟨i, ⟨h1, h2, h3⟩, fun j hj => chunk_range_unique V total ⟨hj.2.1, hj.2.2⟩ ⟨h2, h3⟩⟩
  · exact ⟨chunk_first_zero 4000 4, chunk_first_4000_1, chunk_first_4000_2,
      chunk_first_4000_3, chunk_first_total 4000 4 (by norm_num) (by norm_num)⟩

/-- Counterexample to claim C1 as stated: at `total = V = 49`, the
program's worker-1 boundary is `int(1/49 * 49) = 0` in binary64
arithmetic (the double nearest 1/49, multiplied by 49, rounds to just
below 1), while the formula claimed for it gives `⌊1 * 49 / 49⌋ = 1`;
consequently worker 0's processed index list is empty instead of the
claimed `[0, 1)`. -/
theorem claim_C1_counterexample :
    chunk_first 49 1 49 = 0 ∧ (1 * 49) / 49 = 1
    ∧ chunk_first 49 1 49 ≠ (1 * 49) / 49
    ∧ workerIndices 49 0 49 = [] := by
  refine ⟨chunk_first_49_1, by norm_num, ?_, ?_⟩
  · rw [chunk_first_49_1]
    norm_num
  · rw [workerIndices, show chunk_last 49 0 49 = 0 from chunk_first_49_1,
      chunk_first_zero]
    simp

/-- Witness for C1 at `total = 4`, `V = 4000`. -/
theorem claim_C1_witness :
    (1 ≤ 4 ∧ 4000 < 2 ^ 53)
    ∧ (chunk_first 4000 0 4 = 0
        ∧ chunk_last 4000 (4 - 1) 4 = 4000
        ∧ (∀ i, chunk_last 4000 i 4 = chunk_first 4000 (i + 1) 4)
        ∧ (∀ i j, i ≤ j → chunk_first 4000 i 4 ≤ chunk_first 4000 j 4)
        ∧ (∀ i, workerIndices 4000 i 4
            = (List.range (chunk_last 4000 i 4 - chunk_first 4000 i 4)).map
                (fun n => n + chunk_first 4000 i 4))
        ∧ (∀ k, k < 4000 →
            ∃! i, i < 4 ∧ chunk_first 4000 i 4 ≤ k ∧ k < chunk_last 4000 i 4)
        ∧ (chunk_first 4000 0 4 = 0 ∧ chunk_last 4000 0 4 = 1000 ∧ chunk_last 4000 1 4 = 2000
            ∧ chunk_last 4000 2 4 = 3000 ∧ chunk_last 4000 3 4 = 4000)) :=
  ⟨⟨by norm_num, by norm_num⟩, claim_C1 4000 4 (by norm_num) (by norm_num)⟩

theorem range_prefix_append_workerIndices (V k total : ℕ) :
    List.range (chunk_first V k total) ++ workerIndices V k total
      = (List.range (chunk_first V (k + 1) total)).map (fun i => i + 0) := by
  have hfl : chunk_first V k total ≤ chunk_last V k total := chunk_first_le_last V k total
  have h0 : List.range (chunk_first V k total)
      = (List.range (chunk_first V k total - 0)).map (fun i => i + 0) := by
    simp
  rw [workerIndices, h0, range_map_shift 0 (chunk_first V k total) (chunk_last V k total)
    (Nat.zero_le _)]
  have h1 : chunk_first V k total - 0 + (chunk_last V k total - chunk_first V k total)
      = chunk_first V (k + 1) total - 0 := by
    rw [← chunk_last_eq_first_succ]
    omega
  rw [h1]
  simp

theorem runChunks_prefix (cfg : EngineConfig) (verts : List EVert) (out : ℕ → Vec3R)
    (total : ℕ) :
    ∀ k, (List.range k).foldl (fun o c => worker cfg verts o c total) out
      = (List.range (chunk_first verts.length k total)).foldl
          (fun o idx => processVert cfg o (verts.getD idx ⟨0, []⟩)) out := by
  intro k
  induction k with
  | zero =>
    rw [chunk_first_zero]
    simp
  | succ k ih =>
    rw [List.range_succ, List.foldl_append, ih]
    show (workerIndices verts.length k total).foldl
        (fun o idx => processVert cfg o (verts.getD idx ⟨0, []⟩)) _ = _
    rw [← List.foldl_append]
    rw [range_prefix_append_workerIndices]
    have hid : (List.range (chunk_first verts.length (k + 1) total)).map (fun i => i + 0)
        = List.range (chunk_first verts.length (k + 1) total) := by
      simp
    rw [hid]

/-- Claim C2: for every mesh, configuration, initial buffer and chunk
count `total ≥ 1` (dividing the vertex count evenly or not), running the
worker as `total` separate chunk invocations into the same buffer yields
the same buffer as running it once over the full range (chunk 0 of 1). -/
theorem claim_C2 (cfg : EngineConfig) (verts : List EVert) (out : ℕ → Vec3R)
    (total : ℕ) (h : 1 ≤ total) :
    runChunks cfg verts out total = worker cfg verts out 0 1 := by
  rw [runChunks, runChunks_prefix cfg verts out total total,
    chunk_first_full verts.length total h]
  show _ = (workerIndices verts.length 0 1).foldl
      (fun o idx => processVert cfg o (verts.getD idx ⟨0, []⟩)) out
  have h1 : workerIndices verts.length 0 1
      = List.range ((⌊fl (verts.length : ℚ)⌋).toNat) := by
    rw [workerIndices, chunk_last_eq_first_succ, chunk_first_full verts.length 1 le_rfl,
      chunk_first_zero]
    simp
  rw [h1]

/-- Witness for C2: a concrete one-vertex mesh, two chunks. -/
noncomputable def c2Loop : ELoop := ⟨0, 0, ⟨1, 0, 0⟩, 1, 1, 1, 0, fun v => v⟩

/-- Witness mesh for C2: one vertex with one singleton shading group. -/
noncomputable def c2Verts : List EVert := [⟨VertexNormalWeight.UNIFORM, [[c2Loop]]⟩]

theorem claim_C2_witness :
    1 ≤ 2 ∧ runChunks ⟨false⟩ c2Verts (fun _ => 0) 2 = worker ⟨false⟩ c2Verts (fun _ => 0) 0 1 :=
  ⟨by decide, claim_C2 ⟨false⟩ c2Verts (fun _ => 0) 2 (by decide)⟩

/-! ### Influence-priority filtering (claims C3, C4, C5) -/

theorem foldl_max_init_le (t : List ELoop) :
    ∀ init : ℤ, init ≤ t.foldl (fun m x => max m x.face_normal_influence) init := by
  induction t with
  | nil => intro init; simp
  | cons h t ih =>
    intro init
    exact le_trans (le_max_left init h.face_normal_influence) (ih _)

theorem mem_le_foldl_max (t : List ELoop) :
    ∀ init : ℤ, ∀ x ∈ t, x.face_normal_influence
      ≤ t.foldl (fun m x => max m x.face_normal_influence) init := by
  induction t with
  | nil => intro init x hx; simp at hx
  | cons h t ih =>
    intro init x hx
    rcases List.mem_cons.mp hx with rfl | hx
    · exact le_trans (le_max_right init x.face_normal_influence) (foldl_max_init_le t _)
    · exact ih _ x hx

theorem le_influence_max {g : List ELoop} {l : ELoop} (hl : l ∈ g) :
    l.face_normal_influence ≤ influence_max g := by
  cases g with
  | nil => simp at hl
  | cons h t =>
    rcases List.mem_cons.mp hl with rfl | hl
    · exact foldl_max_init_le t _
    · exact mem_le_foldl_max t _ l hl

theorem influence_max_append {g : List ELoop} (hg : g ≠ []) (l : ELoop) :
    influence_max (g ++ [l]) = max (influence_max g) l.face_normal_influence := by
  cases g with
  | nil => exact absurd rfl hg
  | cons h t =>
    show influence_max (h :: (t ++ [l])) = _
    rw [influence_max, influence_max, List.foldl_append]
    simp

theorem loop_subgroup_append_lt {g : List ELoop} {l : ELoop} (hg : g ≠ [])
    (hl : l.face_normal_influence < influence_max g) :
    loop_subgroup (g ++ [l]) = loop_subgroup g := by
  have hmax : influence_max (g ++ [l]) = influence_max g := by
    rw [influence_max_append hg l]
    exact max_eq_left hl.le
  rw [loop_subgroup, hmax, List.filter_append, loop_subgroup]
  have hfl : [l].filter (fun x => x.face_normal_influence == influence_max g) = [] := by
    simp [hl.ne]
  rw [hfl, List.append_nil]

theorem loop_subgroup_append_eq {g : List ELoop} {l : ELoop} (hg : g ≠ [])
    (hl : l.face_normal_influence = influence_max g) :
    loop_subgroup (g ++ [l]) = loop_subgroup g ++ [l] := by
  have hmax : influence_max (g ++ [l]) = influence_max g := by
    rw [influence_max_append hg l, hl]
    exact max_self _
  rw [loop_subgroup, hmax, List.filter_append, loop_subgroup]
  have hfl : [l].filter (fun x => x.face_normal_influence == influence_max g) = [l] := by
    simp [hl]
  rw [hfl]

/-- Claim C3: within a shading group, only corners whose face carries the
group-maximal influence priority are in the contributing subgroup; a
corner of strictly lower priority is excluded entirely, and appending
one never changes the aggregated normal (under any weight mode), while
appending a corner of equal-to-maximum priority extends the contributing
subgroup. -/
theorem claim_C3 (cfg : EngineConfig) (weight : ℤ) (g : List ELoop) (l : ELoop)
    (hg : g ≠ []) :
    (∀ x ∈ loop_subgroup g, x.face_normal_influence = influence_max g)
    ∧ (l.face_normal_influence < influence_max g → l ∉ loop_subgroup g)
    ∧ (l.face_normal_influence < influence_max g →
        groupNormal cfg weight (g ++ [l]) = groupNormal cfg weight g)
    ∧ (l.face_normal_influence = influence_max g →
        loop_subgroup (g ++ [l]) = loop_subgroup g ++ [l]) := by
  refine ⟨?_, ?_, ?_, fun hl => loop_subgroup_append_eq hg hl⟩
  · intro x hx
    have := List.mem_filter.mp hx
    exact beq_iff_eq.mp this.2
  · intro hl hmem
    have := List.mem_filter.mp hmem
    exact absurd (beq_iff_eq.mp this.2) hl.ne
  · intro hl
    rw [groupNormal, groupNormal, groupSum, groupSum, loop_subgroup_append_lt hg hl]

/-- Witness loops for C3: a two-corner group of priority 1 and an extra
corner of priority 0. -/
def c3LoopA : ELoop := ⟨0, 1, ⟨1, 0, 0⟩, 1, 1, 1, 0, fun v => v⟩

/-- Second witness loop for C3, priority 1. -/
def c3LoopB : ELoop := ⟨1, 1, ⟨0, 1, 0⟩, 1, 1, 1, 0, fun v => v⟩

/-- Low-priority witness loop for C3, priority 0. -/
def c3LoopC : ELoop := ⟨2, 0, ⟨0, 0, 1⟩, 1, 1, 1, 0, fun v => v⟩

theorem claim_C3_witness :
    ([c3LoopA, c3LoopB] ≠ ([] : List ELoop))
    ∧ ((∀ x ∈ loop_subgroup [c3LoopA, c3LoopB],
          x.face_normal_influence = influence_max [c3LoopA, c3LoopB])
      ∧ (c3LoopC.face_normal_influence < influence_max [c3LoopA, c3LoopB] →
          c3LoopC ∉ loop_subgroup [c3LoopA, c3LoopB])
      ∧ (c3LoopC.face_normal_influence < influence_max [c3LoopA, c3LoopB] →
          groupNormal ⟨false⟩ VertexNormalWeight.UNIFORM ([c3LoopA, c3LoopB] ++ [c3LoopC])
            = groupNormal ⟨false⟩ VertexNormalWeight.UNIFORM [c3LoopA, c3LoopB])
      ∧ (c3LoopC.face_normal_influence = influence_max [c3LoopA, c3LoopB] →
          loop_subgroup ([c3LoopA, c3LoopB] ++ [c3LoopC])
            = loop_subgroup [c3LoopA, c3LoopB] ++ [c3LoopC])) :=
  ⟨by simp, claim_C3 ⟨false⟩ VertexNormalWeight.UNIFORM [c3LoopA, c3LoopB] c3LoopC (by simp)⟩

theorem foldl_add_map (f : ELoop → Vec3Q) :
    ∀ (l : List ELoop) (init : Vec3Q),
      l.foldl (fun a x => a + f x) init = init + (l.map f).sum := by
  intro l
  induction l with
  | nil => intro init; simp
  | cons h t ih =>
    intro init
    rw [List.foldl_cons, ih, List.map_cons, List.sum_cons, add_assoc]

/-- Claim C4: under AREA weight mode the aggregated normal of a shading
group is the normalization of the sum, over the max-priority contributing
corners, of each corner's face normal scaled by its face's cached area;
in particular for two max-priority corners with cached areas 1 and 3 and
face normals `n1`, `n2`, the result is `normalize (1 • n1 + 3 • n2)`. -/
theorem claim_C4 :
    (∀ (cfg : EngineConfig) (g : List ELoop),
      groupNormal cfg VertexNormalWeight.AREA g
        = normalize (((loop_subgroup g).map
            (fun l => cachedArea cfg l • l.face_normal)).sum).toR)
    ∧ (∀ n1 n2 : Vec3Q,
        groupNormal ⟨false⟩ VertexNormalWeight.AREA
          [⟨0, 0, n1, 1, 1, 1, 0, fun v => v⟩, ⟨1, 0, n2, 3, 3, 1, 0, fun v => v⟩]
          = normalize ((1 : ℚ) • n1 + (3 : ℚ) • n2).toR) := by
  have hmain : ∀ (cfg : EngineConfig) (g : List ELoop),
      groupNormal cfg VertexNormalWeight.AREA g
        = normalize (((loop_subgroup g).map
            (fun l => cachedArea cfg l • l.face_normal)).sum).toR := by
    intro cfg g
    rw [groupNormal, groupSum, sumContributions]
    norm_num [VertexNormalWeight.AREA, VertexNormalWeight.UNIFORM, VertexNormalWeight.ANGLE]
    rw [foldl_add_map, zero_add]
  refine ⟨hmain, ?_⟩
  intro n1 n2
  rw [hmain]
  have hsub : loop_subgroup
      [⟨0, 0, n1, 1, 1, 1, 0, fun v => v⟩, ⟨1, 0, n2, 3, 3, 1, 0, fun v => v⟩]
      = [⟨0, 0, n1, 1, 1, 1, 0, fun v => v⟩, ⟨1, 0, n2, 3, 3, 1, 0, fun v => v⟩] := by
    simp [loop_subgroup, influence_max]
  rw [hsub]
  simp [cachedArea]

theorem writeGroup_value (g : List ELoop) :
    ∀ (out : ℕ → Vec3R) (vn : Vec3R) (k : ℕ),
      writeGroup out g vn k = if g.any (fun l => l.index == k) then vn else out k := by
  induction g with
  | nil => intro out vn k; simp [writeGroup]
  | cons a t ih =>
    intro out vn k
    show writeGroup (Function.update out a.index vn) t vn k = _
    rw [ih]
    by_cases ht : t.any (fun l => l.index == k)
    · simp [ht]
    · by_cases ha : a.index = k
      · simp [ht, ha, Function.update_apply]
      · simp [ht, ha, Function.update_apply, Ne.symm ha]

/-- Claim C5: when a shading group's summed contribution vector is zero
(antiparallel cancellation), aggregation succeeds and the zero vector is
written to every corner of the group. -/
theorem claim_C5 (cfg : EngineConfig) (weight : ℤ) (g : List ELoop) (out : ℕ → Vec3R)
    (h : groupSum cfg weight g = 0) :
    groupNormal cfg weight g = 0
    ∧ ∀ l ∈ g, writeGroup out g (groupNormal cfg weight g) l.index = 0 := by
  have hres : groupNormal cfg weight g = 0 := by
    rw [groupNormal, h]
    have h0 : (0 : Vec3Q).toR = (0 : Vec3R) := by
      simp [Vec3Q.toR, Vec3R.extR_iff]
    rw [h0, normalize_zero]
  refine ⟨hres, ?_⟩
  intro l hl
  rw [writeGroup_value, hres]
  have hany : g.any (fun x => x.index == l.index) = true :=
    List.any_of_mem hl (by simp)
  rw [hany]
  simp

/-- Witness loops for C5: antiparallel unit face normals of equal priority. -/
def c5LoopA : ELoop := ⟨0, 0, ⟨0, 0, 1⟩, 1, 1, 1, 0, fun v => v⟩

/-- Second witness loop for C5, with the opposite face normal. -/
def c5LoopB : ELoop := ⟨1, 0, ⟨0, 0, -1⟩, 1, 1, 1, 0, fun v => v⟩

theorem claim_C5_witness :
    groupSum ⟨false⟩ VertexNormalWeight.UNIFORM [c5LoopA, c5LoopB] = 0
    ∧ (groupNormal ⟨false⟩ VertexNormalWeight.UNIFORM [c5LoopA, c5LoopB] = 0
      ∧ ∀ l ∈ [c5LoopA, c5LoopB],
          writeGroup (fun _ => 0) [c5LoopA, c5LoopB]
            (groupNormal ⟨false⟩ VertexNormalWeight.UNIFORM [c5LoopA, c5LoopB]) l.index = 0) := by
  have hsum : groupSum ⟨false⟩ VertexNormalWeight.UNIFORM [c5LoopA, c5LoopB] = 0 := by
    norm_num [groupSum, sumContributions, loop_subgroup, influence_max,
      VertexNormalWeight.UNIFORM, c5LoopA, c5LoopB, Vec3Q.ext_iff]
  exact ⟨hsum, claim_C5 ⟨false⟩ VertexNormalWeight.UNIFORM [c5LoopA, c5LoopB] (fun _ => 0) hsum⟩

/-! ### The spatial hash and the merge query (claims C6, C9) -/

theorem floor_drift {a b d : ℚ} (hd : 0 < d) (h : (a - b) * (a - b) ≤ d * d) :
    ⌊b / d⌋ - 1 ≤ ⌊a / d⌋ ∧ ⌊a / d⌋ ≤ ⌊b / d⌋ + 1 := by
  have habs1 : b - d ≤ a := by nlinarith [sq_nonneg (a - b + d)]
  have habs2 : a ≤ b + d := by nlinarith [sq_nonneg (a - b - d)]
  have hone : (1 : ℚ) = ((1 : ℤ) : ℚ) := by norm_num
  constructor
  · have hdiv : b / d - 1 ≤ a / d := by
      have h1 : (b - d) / d ≤ a / d := (div_le_div_iff_of_pos_right hd).mpr habs1
      rw [sub_div, div_self hd.ne'] at h1
      exact h1
    have h2 := Int.floor_le_floor hdiv
    rw [hone, Int.floor_sub_int] at h2
    exact h2
  · have hdiv : a / d ≤ b / d + 1 := by
      have h1 : a / d ≤ (b + d) / d := (div_le_div_iff_of_pos_right hd).mpr habs2
      rw [add_div, div_self hd.ne'] at h1
      exact h1
    have h2 := Int.floor_le_floor hdiv
    rw [hone, Int.floor_add_int] at h2
    exact h2

theorem mem_mergeable_iff {d : ℚ} (hd : 0 < d) (idx : List MVert) (v w : MVert) :
    w ∈ mergeable_verts d idx v ↔ w ∈ idx ∧ distSq w.co v.co ≤ d * d := by
  constructor
  · intro h
    obtain ⟨hnear, hdist⟩ := List.mem_filter.mp h
    obtain ⟨hidx, _⟩ := List.mem_filter.mp hnear
    exact ⟨hidx, of_decide_eq_true hdist⟩
  · rintro ⟨hidx, hdist⟩
    have hexp : (w.co.x - v.co.x) * (w.co.x - v.co.x)
        + (w.co.y - v.co.y) * (w.co.y - v.co.y)
        + (w.co.z - v.co.z) * (w.co.z - v.co.z) ≤ d * d := by
      have : distSq w.co v.co = (w.co.x - v.co.x) * (w.co.x - v.co.x)
          + (w.co.y - v.co.y) * (w.co.y - v.co.y)
          + (w.co.z - v.co.z) * (w.co.z - v.co.z) := by
        simp [distSq, Vec3Q.lengthSq]
      rw [this] at hdist
      exact hdist
    have hx := floor_drift hd (show (w.co.x - v.co.x) * (w.co.x - v.co.x) ≤ d * d by
      nlinarith [sq_nonneg (w.co.y - v.co.y), sq_nonneg (w.co.z - v.co.z)])
    have hy := floor_drift hd (show (w.co.y - v.co.y) * (w.co.y - v.co.y) ≤ d * d by
      nlinarith [sq_nonneg (w.co.x - v.co.x), sq_nonneg (w.co.z - v.co.z)])
    have hz := floor_drift hd (show (w.co.z - v.co.z) * (w.co.z - v.co.z) ≤ d * d by
      nlinarith [sq_nonneg (w.co.x - v.co.x), sq_nonneg (w.co.y - v.co.y)])
    refine List.mem_filter.mpr ⟨List.mem_filter.mpr ⟨hidx, ?_⟩, by simp [hdist]⟩
    simp only [cellOf, decide_eq_true_eq]
    exact ⟨hx.1, hx.2, hy.1, hy.2, hz.1, hz.2⟩

/-- Claim C6: with threshold `d > 0`, every vertex is assigned to grid
cell `(⌊x/d⌋, ⌊y/d⌋, ⌊z/d⌋)`, and the cluster gathered for a seed `v`
from the 3x3x3 cell neighborhood and filtered by true squared distance
contains exactly the indexed vertices `w` with `|w - v|² ≤ d²`. -/
theorem claim_C6 (d : ℚ) (m : MergeMesh) (unselected : Bool) (v w : MVert) (hd : 0 < d) :
    (∀ u : Vec3Q, cellOf d u = ⟨⌊u.x / d⌋, ⌊u.y / d⌋, ⌊u.z / d⌋⟩)
    ∧ (w ∈ mergeable_verts d (indexedVerts m unselected) v
        ↔ w ∈ indexedVerts m unselected ∧ distSq w.co v.co ≤ d * d) :=
  ⟨fun _ => rfl, mem_mergeable_iff hd (indexedVerts m unselected) v w⟩

/-- Witness vertices for C6: two selected vertices one unit apart. -/
def c6VertA : MVert := ⟨0, ⟨0, 0, 0⟩, true, []⟩

/-- Second witness vertex for C6. -/
def c6VertB : MVert := ⟨1, ⟨1, 0, 0⟩, true, []⟩

/-- Witness mesh for C6. -/
def c6Mesh : MergeMesh := ⟨[c6VertA, c6VertB], fun _ => 0, fun _ n => n⟩

theorem claim_C6_witness :
    (0 : ℚ) < 1
    ∧ ((∀ u : Vec3Q, cellOf 1 u = ⟨⌊u.x / 1⌋, ⌊u.y / 1⌋, ⌊u.z / 1⌋⟩)
      ∧ (c6VertB ∈ mergeable_verts 1 (indexedVerts c6Mesh false) c6VertA
          ↔ c6VertB ∈ indexedVerts c6Mesh false ∧ distSq c6VertB.co c6VertA.co ≤ 1 * 1)) :=
  ⟨by norm_num, claim_C6 1 c6Mesh false c6VertA c6VertB (by norm_num)⟩

/-- Claim C9 (amended): for a fixed indexed vertex set and any seed, the
cluster gathered by a single query never shrinks when the distance
grows — every vertex in the cluster at distance `d` is in the cluster at
any distance `e ≥ d`.  (Run-level monotonicity of the whole merge pass
fails; see the counterexample.) -/
theorem claim_C9 (d e : ℚ) (idx : List MVert) (v w : MVert)
    (hd : 0 < d) (hde : d ≤ e) (hw : w ∈ mergeable_verts d idx v) :
    w ∈ mergeable_verts e idx v := by
  have he : 0 < e := lt_of_lt_of_le hd hde
  obtain ⟨hidx, hdist⟩ := (mem_mergeable_iff hd idx v w).mp hw
  refine (mem_mergeable_iff he idx v w).mpr ⟨hidx, le_trans hdist ?_⟩
  nlinarith

theorem claim_C9_witness :
    (0 : ℚ) < 1 ∧ (1 : ℚ) ≤ 2
    ∧ c6VertB ∈ mergeable_verts 1 [c6VertA, c6VertB] c6VertA
    ∧ c6VertB ∈ mergeable_verts 2 [c6VertA, c6VertB] c6VertA := by
  have hmem : c6VertB ∈ mergeable_verts 1 [c6VertA, c6VertB] c6VertA := by
    norm_num [mergeable_verts, nearby_verts, cellOf, distSq, Vec3Q.lengthSq,
      c6VertA, c6VertB, List.filter]
  exact ⟨by norm_num, by norm_num, hmem,
    claim_C9 1 2 [c6VertA, c6VertB] c6VertA c6VertB (by norm_num) (by norm_num) hmem⟩

/-- Counterexample mesh for C9: four selected vertices on a line (plus one
off-axis) for which a set merged into one cluster at distance 10 is split
across clusters at distance 15. -/
def c9T : MVert := ⟨0, ⟨10, 12, 0⟩, true, []⟩

/-- Counterexample vertex for C9: the middle seed. -/
def c9S : MVert := ⟨1, ⟨10, 0, 0⟩, true, []⟩

/-- Counterexample vertex for C9: left neighbor of the middle seed. -/
def c9W1 : MVert := ⟨2, ⟨0, 0, 0⟩, true, []⟩

/-- Counterexample vertex for C9: right neighbor of the middle seed. -/
def c9W2 : MVert := ⟨3, ⟨20, 0, 0⟩, true, []⟩

/-- Counterexample mesh for C9. -/
def c9Mesh : MergeMesh := ⟨[c9T, c9S, c9W1, c9W2], fun _ => 0, fun _ n => n⟩

/-- Initial attribute state used by the merge counterexamples. -/
def mergeStInit : MergeState := ⟨fun _ => 0, fun _ => 0⟩

/-- Counterexample to claim C9 as stated: at distance 10 the merge pass
puts `c9W1`, `c9S`, `c9W2` into one cluster, but at the larger distance
15 no cluster of the pass contains all three — increasing `distance`
does shrink a resulting cluster. -/
theorem claim_C9_counterexample :
    ((mergeRun 10 c9Mesh false mergeStInit).2.any
        (fun s => decide (c9W1 ∈ s.cluster) && decide (c9S ∈ s.cluster)
          && decide (c9W2 ∈ s.cluster)) = true)
    ∧ (10 : ℚ) < 15
    ∧ ((mergeRun 15 c9Mesh false mergeStInit).2.any
        (fun s => decide (c9W1 ∈ s.cluster) && decide (c9S ∈ s.cluster)
          && decide (c9W2 ∈ s.cluster)) = false) := by
  have h10 : (mergeRun 10 c9Mesh false mergeStInit).2
      = [⟨c9T, [c9T], false⟩, ⟨c9S, [c9S, c9W1, c9W2], true⟩] := by
    norm_num [mergeRun, mergeLoopFuel, mergeStepOf, mergeable_verts, nearby_verts,
      indexedVerts, cellOf, distSq, Vec3Q.lengthSq, normalCount, pendingOf,
      c9T, c9S, c9W1, c9W2, c9Mesh, List.filter, List.dedup]
  have h15 : (mergeRun 15 c9Mesh false mergeStInit).2
      = [⟨c9T, [c9T, c9S], true⟩, ⟨c9W1, [c9S, c9W1], true⟩, ⟨c9W2, [c9S, c9W2], true⟩] := by
    norm_num [mergeRun, mergeLoopFuel, mergeStepOf, mergeable_verts, nearby_verts,
      indexedVerts, cellOf, distSq, Vec3Q.lengthSq, normalCount, pendingOf,
      c9T, c9S, c9W1, c9W2, c9Mesh, List.filter, List.dedup]
  refine ⟨?_, by norm_num, ?_⟩
  · rw [h10]
    simp [c9T, c9S, c9W1, c9W2]
  · rw [h15]
    simp [c9T, c9S, c9W1, c9W2]

/-! ### The merge write branch (claim C7) -/

theorem loopWrites_value (tr : ℕ → Vec3R) (loops : List ℕ) :
    ∀ (f : ℕ → Vec3R) (j : ℕ),
      loops.foldl (fun f i => Function.update f i (tr i)) f j
        = if loops.contains j then tr j else f j := by
  induction loops with
  | nil => intro f j; simp
  | cons a t ih =>
    intro f j
    rw [List.foldl_cons, ih]
    by_cases ht : j ∈ t
    · simp [ht]
    · by_cases ha : j = a
      · subst ha
        simp [ht, Function.update_apply]
      · simp [ht, ha, Function.update_apply]

theorem clusterWrites_weight (tr : ℕ → Vec3R) (cluster : List MVert) :
    ∀ (st : MergeState) (k : ℕ),
      (cluster.foldl (fun st2 v =>
          { weight := Function.update st2.weight v.id VertexNormalWeight.UNWEIGHTED
            loopNormal := v.link_loops.foldl (fun f i => Function.update f i (tr i))
              st2.loopNormal }) st).weight k
        = if cluster.any (fun v => v.id == k) then VertexNormalWeight.UNWEIGHTED
          else st.weight k := by
  induction cluster with
  | nil => intro st k; simp
  | cons v t ih =>
    intro st k
    rw [List.foldl_cons, ih]
    by_cases ht : t.any (fun v => v.id == k)
    · simp [ht]
    · by_cases hv : v.id = k
      · simp [ht, hv, Function.update_apply]
      · simp [ht, hv, Function.update_apply, Ne.symm hv]

theorem clusterWrites_normal (tr : ℕ → Vec3R) (cluster : List MVert) :
    ∀ (st : MergeState) (j : ℕ),
      (cluster.foldl (fun st2 v =>
          { weight := Function.update st2.weight v.id VertexNormalWeight.UNWEIGHTED
            loopNormal := v.link_loops.foldl (fun f i => Function.update f i (tr i))
              st2.loopNormal }) st).loopNormal j
        = if cluster.any (fun v => v.link_loops.contains j) then tr j
          else st.loopNormal j := by
  induction cluster with
  | nil => intro st j; simp
  | cons v t ih =>
    intro st j
    rw [List.foldl_cons, ih]
    by_cases ht : ∃ x ∈ t, j ∈ x.link_loops
    · simp [ht]
    · by_cases hv : j ∈ v.link_loops
      · simp [ht, hv, loopWrites_value]
      · simp [ht, hv, loopWrites_value]

theorem self_mem_mergeable {d : ℚ} (hd : 0 < d) {m : MergeMesh} {u : Bool} {v : MVert}
    (hv : v ∈ m.verts) (hs : v.select = true) :
    v ∈ mergeable_verts d (indexedVerts m u) v := by
  have hvidx : v ∈ indexedVerts m u := by
    cases u with
    | true => simpa [indexedVerts] using hv
    | false => exact List.mem_filter.mpr ⟨hv, by simp [hs]⟩
  refine (mem_mergeable_iff hd _ v v).mpr ⟨hvidx, ?_⟩
  have h0 : distSq v.co v.co = 0 := by simp [distSq, Vec3Q.lengthSq]
  rw [h0]
  positivity

/-- Claim C7 (amended): with `d > 0` and a selected seed, the merge
iteration skips its attribute writes exactly when the seed has at most
one distinct snapshot normal across its own corners AND its cluster has
exactly one member (the seed itself; a cornerless seed has zero distinct
normals and is also skipped, which is where the claim as stated fails);
otherwise every cluster member's weight becomes UNWEIGHTED and every one
of its corners receives the cluster normal transformed into that
corner's space. -/
theorem claim_C7 (d : ℚ) (m : MergeMesh) (u : Bool) (v : MVert) (st : MergeState)
    (hd : 0 < d) (hv : v ∈ m.verts) (hs : v.select = true) :
    ((mergeStepOf d m u v).write = false
      ↔ normalCount m v ≤ 1 ∧ (mergeStepOf d m u v).cluster.length = 1)
    ∧ ((mergeStepOf d m u v).write = true →
        ∀ w ∈ (mergeStepOf d m u v).cluster,
          (applyStep m st (mergeStepOf d m u v)).weight w.id
              = VertexNormalWeight.UNWEIGHTED
          ∧ ∀ i ∈ w.link_loops,
              (applyStep m st (mergeStepOf d m u v)).loopNormal i
                = m.loop_space_transform i
                    (clusterNormal m (mergeStepOf d m u v).cluster)) := by
  have hself : v ∈ mergeable_verts d (indexedVerts m u) v := self_mem_mergeable hd hv hs
  have hlen : 1 ≤ (mergeable_verts d (indexedVerts m u) v).length :=
    List.length_pos.mpr (List.ne_nil_of_mem hself)
  constructor
  · show (decide (1 < normalCount m v) || decide (1 < _)) = false ↔ _
    rw [Bool.or_eq_false_iff]
    simp only [decide_eq_false_iff_not, Nat.not_lt]
    show _ ↔ _ ∧ (mergeable_verts d (indexedVerts m u) v).length = 1
    omega
  · intro hw w hmem
    have happly : applyStep m st (mergeStepOf d m u v)
        = (mergeStepOf d m u v).cluster.foldl
            (fun st2 x =>
              { weight := Function.update st2.weight x.id VertexNormalWeight.UNWEIGHTED
                loopNormal := x.link_loops.foldl
                  (fun f i => Function.update f i
                    (m.loop_space_transform i
                      (clusterNormal m (mergeStepOf d m u v).cluster)))
                  st2.loopNormal }) st := by
      rw [applyStep, if_pos hw]
    constructor
    · rw [happly, clusterWrites_weight]
      have hany : (mergeStepOf d m u v).cluster.any (fun x => x.id == w.id) = true :=
        List.any_of_mem hmem (by simp)
      rw [hany]
      simp
    · intro i hi
      rw [happly, clusterWrites_normal]
      have hany : (mergeStepOf d m u v).cluster.any
          (fun x => x.link_loops.contains i) = true :=
        List.any_of_mem hmem (by simpa using hi)
      rw [hany]
      simp

/-- Counterexample vertex for C7: a selected vertex with no corners. -/
def c7Vert : MVert := ⟨0, ⟨0, 0, 0⟩, true, []⟩

/-- Counterexample mesh for C7. -/
def c7Mesh : MergeMesh := ⟨[c7Vert], fun _ => 0, fun _ n => n⟩

/-- Counterexample to claim C7 as stated: for a selected cornerless seed
the write is skipped and the cluster has exactly one member, yet the
seed does not have "a single unique normal across its own corners" (it
has zero), so "skipped exactly when the seed has a single unique normal
and the cluster has one member" fails. -/
theorem claim_C7_counterexample :
    (mergeStepOf 1 c7Mesh false c7Vert).write = false
    ∧ (mergeStepOf 1 c7Mesh false c7Vert).cluster.length = 1
    ∧ normalCount c7Mesh c7Vert ≠ 1 := by
  norm_num [mergeStepOf, mergeable_verts, nearby_verts, indexedVerts, cellOf,
    distSq, Vec3Q.lengthSq, normalCount, c7Vert, c7Mesh, List.filter, List.dedup]

/-- Witness vertices for C7, scenario A: two coincident selected vertices
sharing one face (corners 0 and 1). -/
def cAv1 : MVert := ⟨0, ⟨0, 0, 0⟩, true, [0]⟩

/-- Second coincident scenario-A vertex. -/
def cAv2 : MVert := ⟨1, ⟨0, 0, 0⟩, true, [1]⟩

/-- Scenario-A mesh for the C7 witness. -/
def cAMesh : MergeMesh := ⟨[cAv1, cAv2], fun _ => 0, fun _ n => n⟩

theorem claim_C7_witness :
    (0 : ℚ) < 1 / 1000 ∧ cAv1 ∈ cAMesh.verts ∧ cAv1.select = true
    ∧ (((mergeStepOf (1 / 1000) cAMesh false cAv1).write = false
        ↔ normalCount cAMesh cAv1 ≤ 1
          ∧ (mergeStepOf (1 / 1000) cAMesh false cAv1).cluster.length = 1)
      ∧ ((mergeStepOf (1 / 1000) cAMesh false cAv1).write = true →
          ∀ w ∈ (mergeStepOf (1 / 1000) cAMesh false cAv1).cluster,
            (applyStep cAMesh mergeStInit (mergeStepOf (1 / 1000) cAMesh false cAv1)).weight w.id
                = VertexNormalWeight.UNWEIGHTED
            ∧ ∀ i ∈ w.link_loops,
                (applyStep cAMesh mergeStInit
                    (mergeStepOf (1 / 1000) cAMesh false cAv1)).loopNormal i
                  = cAMesh.loop_space_transform i
                      (clusterNormal cAMesh
                        (mergeStepOf (1 / 1000) cAMesh false cAv1).cluster))) :=
  ⟨by norm_num, by simp [cAMesh], rfl,
    claim_C7 (1 / 1000) cAMesh false cAv1 mergeStInit (by norm_num) (by simp [cAMesh]) rfl⟩

/-! ### The merge loop (claims C8, C10) -/

theorem mergeLoopFuel_cons (d : ℚ) (m : MergeMesh) (u : Bool) (fuel : ℕ)
    (st : MergeState) (v : MVert) (rest : List MVert) :
    mergeLoopFuel d m u (fuel + 1) st (v :: rest)
      = ((mergeLoopFuel d m u fuel (applyStep m st (mergeStepOf d m u v))
            (rest.filter (fun w =>
              !(decide (w ∈ (mergeStepOf d m u v).cluster) && w.select)))).1,
         mergeStepOf d m u v
           :: (mergeLoopFuel d m u fuel (applyStep m st (mergeStepOf d m u v))
                (rest.filter (fun w =>
                  !(decide (w ∈ (mergeStepOf d m u v).cluster) && w.select)))).2) := rfl

theorem mergeLoop_invariant (d : ℚ) (m : MergeMesh) (u : Bool) :
    ∀ (fuel : ℕ) (pending : List MVert) (st : MergeState),
      pending.Nodup → (∀ v ∈ pending, v.select = true) →
      (∀ s ∈ (mergeLoopFuel d m u fuel st pending).2, s.seed ∈ pending)
      ∧ ((mergeLoopFuel d m u fuel st pending).2.map (fun s => s.seed)).Nodup
      ∧ (mergeLoopFuel d m u fuel st pending).2.length ≤ pending.length
      ∧ List.Pairwise (fun a b => b.seed ∉ a.cluster)
          (mergeLoopFuel d m u fuel st pending).2 := by
  intro fuel
  induction fuel with
  | zero => intro pending st _ _; simp [mergeLoopFuel]
  | succ fuel ih =>
    intro pending st hnd hsel
    cases pending with
    | nil => simp [mergeLoopFuel]
    | cons v rest =>
      rw [mergeLoopFuel_cons]
      set s0 := mergeStepOf d m u v with hs0
      set rest2 := rest.filter (fun w => !(decide (w ∈ s0.cluster) && w.select)) with hrest2
      have hnd2 : rest2.Nodup := (List.nodup_cons.mp hnd).2.filter _
      have hsub2 : ∀ w ∈ rest2, w ∈ rest := fun w hw => (List.mem_filter.mp hw).1
      have hsel2 : ∀ w ∈ rest2, w.select = true := fun w hw =>
        hsel w (List.mem_cons_of_mem v (hsub2 w hw))
      obtain ⟨ihSeed, ihNodup, ihLen, ihPar⟩ :=
        ih rest2 (applyStep m st s0) hnd2 hsel2
      refine ⟨?_, ?_, ?_, ?_⟩
      · intro s hs
        rcases List.mem_cons.mp hs with rfl | hs
        · exact List.mem_cons_self _ _
        · exact List.mem_cons_of_mem v (hsub2 _ (ihSeed s hs))
      · rw [List.map_cons, List.nodup_cons]
        refine ⟨?_, ihNodup⟩
        intro hvmem
        obtain ⟨s, hs, hseed⟩ := List.mem_map.mp hvmem
        have hvrest : s.seed ∈ rest := hsub2 _ (ihSeed s hs)
        rw [hseed] at hvrest
        exact (List.nodup_cons.mp hnd).1 hvrest
      · have h1 : rest2.length ≤ rest.length := List.length_filter_le _ rest
        simpa using Nat.add_le_add_right (le_trans ihLen h1) 1
      · rw [List.pairwise_cons]
        refine ⟨?_, ihPar⟩
        intro t ht
        have htmem : t.seed ∈ rest2 := ihSeed t ht
        have hfilt := (List.mem_filter.mp htmem).2
        have htsel : t.seed.select = true := hsel2 _ htmem
        intro hmem
        simp [htsel, hmem] at hfilt

/-- Claim C8 (amended): for every finite pending set (duplicate-free, as a
Python set is), the merge loop terminates after at most one iteration
per pending vertex; every seed is a selected pending vertex, no vertex
seeds twice, and once a vertex is included in some iteration's cluster
it never serves as a later seed.  (A vertex can, however, be a non-seed
member of several clusters and so be written more than once; see the
counterexample.) -/
theorem claim_C8 (d : ℚ) (m : MergeMesh) (u : Bool) (st : MergeState)
    (h : (pendingOf m).Nodup) :
    (∀ s ∈ (mergeRun d m u st).2, s.seed ∈ pendingOf m)
    ∧ ((mergeRun d m u st).2.map (fun s => s.seed)).Nodup
    ∧ (mergeRun d m u st).2.length ≤ (pendingOf m).length
    ∧ List.Pairwise (fun a b => b.seed ∉ a.cluster) (mergeRun d m u st).2 :=
  mergeLoop_invariant d m u (pendingOf m).length (pendingOf m) st h
    (fun _ hv => (List.mem_filter.mp hv).2)

theorem claim_C8_witness :
    (pendingOf c6Mesh).Nodup
    ∧ ((∀ s ∈ (mergeRun 1 c6Mesh false mergeStInit).2, s.seed ∈ pendingOf c6Mesh)
      ∧ ((mergeRun 1 c6Mesh false mergeStInit).2.map (fun s => s.seed)).Nodup
      ∧ (mergeRun 1 c6Mesh false mergeStInit).2.length ≤ (pendingOf c6Mesh).length
      ∧ List.Pairwise (fun a b => b.seed ∉ a.cluster) (mergeRun 1 c6Mesh false mergeStInit).2) := by
  have hnd : (pendingOf c6Mesh).Nodup := by
    simp [pendingOf, c6Mesh, c6VertA, c6VertB]
  exact ⟨hnd, claim_C8 1 c6Mesh false mergeStInit hnd⟩

/-- Counterexample vertex for C8: leftmost of three collinear selected
vertices. -/
def c8A : MVert := ⟨0, ⟨0, 0, 0⟩, true, []⟩

/-- Counterexample vertex for C8: rightmost vertex. -/
def c8C : MVert := ⟨1, ⟨18, 0, 0⟩, true, []⟩

/-- Counterexample vertex for C8: middle vertex, within distance of both
others. -/
def c8B : MVert := ⟨2, ⟨9, 0, 0⟩, true, []⟩

/-- Counterexample mesh for C8. -/
def c8Mesh : MergeMesh := ⟨[c8A, c8C, c8B], fun _ => 0, fun _ n => n⟩

/-- Counterexample to claim C8 as stated: at distance 10 the middle vertex
`c8B` is included in the first iteration's cluster (and written), yet it
is included and written again by the second iteration — a selected
vertex does receive a second cluster assignment. -/
theorem claim_C8_counterexample :
    (mergeRun 10 c8Mesh false mergeStInit).2
        = [⟨c8A, [c8A, c8B], true⟩, ⟨c8C, [c8C, c8B], true⟩]
    ∧ c8B ∈ [c8A, c8B] ∧ c8B ∈ [c8C, c8B]
    ∧ (mergeRun 10 c8Mesh false mergeStInit).2.countP
        (fun s => decide (c8B ∈ s.cluster) && s.write) = 2 := by
  have htr : (mergeRun 10 c8Mesh false mergeStInit).2
      = [⟨c8A, [c8A, c8B], true⟩, ⟨c8C, [c8C, c8B], true⟩] := by
    norm_num [mergeRun, mergeLoopFuel, mergeStepOf, mergeable_verts, nearby_verts,
      indexedVerts, cellOf, distSq, Vec3Q.lengthSq, normalCount, pendingOf,
      c8A, c8B, c8C, c8Mesh, List.filter, List.dedup]
  refine ⟨htr, by simp, by simp, ?_⟩
  rw [htr]
  simp [List.countP_cons, c8A, c8B, c8C]

/-- Claim C10: the per-vertex averaged normals of the merge pass are
computed from the one snapshot taken before the loop, so the trace of
iterations (seeds, clusters, write decisions — and with them the cluster
normals, which are functions of the mesh snapshot and the cluster alone)
is identical from any two initial attribute states, and the final state
is exactly the initial state with the trace's writes folded over it:
earlier clusters' attribute writes never influence later averages,
whatever the pending order. -/
theorem claim_C10 (d : ℚ) (m : MergeMesh) (u : Bool) :
    ∀ (fuel : ℕ) (pending : List MVert) (st1 st2 : MergeState),
      (mergeLoopFuel d m u fuel st1 pending).2 = (mergeLoopFuel d m u fuel st2 pending).2
      ∧ (mergeLoopFuel d m u fuel st1 pending).1
          = ((mergeLoopFuel d m u fuel st1 pending).2).foldl (applyStep m) st1 := by
  intro fuel
  induction fuel with
  | zero => intro pending st1 st2; simp [mergeLoopFuel]
  | succ fuel ih =>
    intro pending st1 st2
    cases pending with
    | nil => simp [mergeLoopFuel]
    | cons v rest =>
      rw [mergeLoopFuel_cons, mergeLoopFuel_cons]
      constructor
      · show _ :: _ = _ :: _
        rw [(ih _ (applyStep m st1 (mergeStepOf d m u v))
          (applyStep m st2 (mergeStepOf d m u v))).1]
      · rw [List.foldl_cons]
        exact (ih _ (applyStep m st1 (mergeStepOf d m u v))
          (applyStep m st1 (mergeStepOf d m u v))).2

end Yavne
